import Mathlib

/-!
Shallow embedding of the ServerSentry maintenance scripts
(`tools/consolidate_duplicates.py`, `tools/migrate_bootstrap_simple.py`,
`tools/project_cleanup_audit.py`) and proofs about them.

Text is modelled as a list of characters (`Text := List Char`); Python
`str.split("\n")` / `"\n".join(...)` become `splitLines` / `joinLines`,
Python substring containment (`in`) becomes `containsSub`, and the regular
expressions of the scripts (which are all of the restricted shapes
`ident\s*\(\)\s*¤` for a brace, or `A.*B`) are hand-compiled into
deterministic scanners, as justified in the comments at each definition.
-/

namespace ServerSentry

/-- Program text, as a list of characters. -/
abbrev Text := List Char

/-- Coerce a Lean string literal to `Text`. -/
def str (s : String) : Text := s.data

/-- The characters matched by Python `\s` (and stripped by `str.strip()`)
for ASCII input: space, tab, newline, carriage return, form feed,
vertical tab.  The scripts only process ASCII shell sources, where this
coincides with Python semantics. -/
def isSpacePy (c : Char) : Bool :=
  c = ' ' || c = '\t' || c = '\n' || c = '\r' || c = '\x0c' || c = '\x0b'

/-- Python `str.strip()`. -/
def trimText (l : Text) : Text :=
  ((l.dropWhile isSpacePy).reverse.dropWhile isSpacePy).reverse

/-- Python `str.lower()` (ASCII). -/
def lowerT (t : Text) : Text := t.map Char.toLower

/-- `startsWith p t` iff `p` is a prefix of `t`. -/
def startsWith : Text → Text → Bool
  | [], _ => true
  | _ :: _, [] => false
  | a :: as, b :: bs => a = b && startsWith as bs

/-- Python `p in t`: contiguous-substring containment. -/
def containsSub (p : Text) : Text → Bool
  | [] => startsWith p []
  | c :: cs => startsWith p (c :: cs) || containsSub p cs

/-- Python `content.split("\n")`: split at every newline, keeping empty
segments (never returns an empty list). -/
def splitLines : Text → List Text
  | [] => [[]]
  | c :: cs =>
    if c = '\n' then [] :: splitLines cs
    else
      match splitLines cs with
      | [] => [[c]]
      | l :: ls => (c :: l) :: ls

/-- Python `"\n".join(lines)`. -/
def joinLines : List Text → Text
  | [] => []
  | [l] => l
  | l :: l' :: ls => l ++ '\n' :: joinLines (l' :: ls)

/-- Python `f.readlines()` on a whole text: segments end just after each
newline; a final segment without a newline is kept; empty text gives no
lines. -/
def readLines : Text → List Text
  | [] => []
  | c :: cs =>
    if c = '\n' then [ '\n' ] :: readLines cs
    else
      match readLines cs with
      | [] => [[c]]
      | l :: ls => (c :: l) :: ls

/-- `count('¤')` minus `count('¤')` for the two brace characters: the brace
delta of a line (`line.count("\x7b") - line.count("\x7d")`). -/
def braceDelta (l : Text) : Int :=
  (l.countP (fun c => c == '\x7b') : Int) - (l.countP (fun c => c == '\x7d') : Int)

/-- Python regex class `[a-zA-Z0-9_]`. -/
def isWordChar (c : Char) : Bool := c.isAlpha || c.isDigit || c = '_'

/-- Python regex class `[a-zA-Z_]`. -/
def isIdentStart (c : Char) : Bool := c.isAlpha || c = '_'

/-- The shared header regex `^([a-zA-Z_][a-zA-Z0-9_]*)\s*\(\)\s*\x7b` of
`consolidate_duplicates.py` (line 126) and `project_cleanup_audit.py`
(line 121), compiled by hand.  On success returns the captured
identifier and the text after the opening brace.  The regex is
deterministic: the greedy `[a-zA-Z0-9_]*` is followed by `\s*\(`, and a
word character is neither whitespace nor `(`, so maximal munch never
backtracks; likewise for each `\s*`. -/
def headerMatchML : Text → Option (Text × Text)
  | [] => none
  | c :: cs =>
    if isIdentStart c then
      match (cs.dropWhile isWordChar).dropWhile isSpacePy with
      | '(' :: ')' :: rest4 =>
        match rest4.dropWhile isSpacePy with
        | '\x7b' :: rest6 => some (c :: cs.takeWhile isWordChar, rest6)
        | _ => none
      | _ => none
    else none

/-- `re.match(header_regex, line.strip())`, returning the captured
function name (`consolidate_duplicates.py`, lines 125-129). -/
def headerName (line : Text) : Option Text :=
  (headerMatchML (trimText line)).map (fun p => p.1)

/-- The line-scanning loop of
`DuplicateConsolidator.remove_duplicate_functions`
(`consolidate_duplicates.py`, lines 104-139): while not skipping, a line
whose stripped form matches the header regex with a name in the deletion
set starts a skipped region seeded with the line's brace delta; while
skipping, each line updates the running delta and the region ends once
it drops to zero or below (that line is also dropped); all other lines
are emitted unchanged. -/
def removeDupAux (fns : List Text) : List Text → Bool → Int → List Text
  | [], _, _ => []
  | l :: ls, true, bc =>
    let bc' := bc + braceDelta l
    if bc' ≤ 0 then removeDupAux fns ls false 0
    else removeDupAux fns ls true bc'
  | l :: ls, false, _ =>
    match headerName l with
    | some n =>
      if n ∈ fns then removeDupAux fns ls true (braceDelta l)
      else l :: removeDupAux fns ls false 0
    | none => l :: removeDupAux fns ls false 0

/-- `DuplicateConsolidator.remove_duplicate_functions(content,
functions_to_remove)` (`consolidate_duplicates.py`, lines 102-140). -/
def remove_duplicate_functions (content : Text) (fns : List Text) : Text :=
  joinLines (removeDupAux fns (splitLines content) false 0)

/-- `self.test_functions` (`consolidate_duplicates.py`, lines 22-33). -/
def test_functions : List Text :=
  [ str "test_pass", str "test_fail", str "assert", str "setup_test_environment",
    str "cleanup_test_environment", str "create_test_config", str "print_test_header",
    str "start_timer", str "end_timer", str "assert_performance" ]

/-- `self.ui_functions` (`consolidate_duplicates.py`, lines 35-44). -/
def ui_functions : List Text :=
  [ str "print_header", str "print_success", str "print_error", str "print_warning",
    str "print_info", str "print_separator", str "print_dim", str "print_status" ]

/-- `should_add_test_framework` (`consolidate_duplicates.py`, lines 54-56):
the content mentions some test-framework function name as a substring. -/
def should_add_test_framework (content : Text) : Bool :=
  test_functions.any (fun f => containsSub f content)

/-- `should_add_ui_framework` (`consolidate_duplicates.py`, lines 58-60). -/
def should_add_ui_framework (content : Text) : Bool :=
  ui_functions.any (fun f => containsSub f content)

/-- The test-framework import block inserted by `add_framework_import`
(`consolidate_duplicates.py`, lines 65-70). -/
def test_import_block : Text :=
  str "\n# Load unified test framework\nif [[ -f \"$\x7bSERVERSENTRY_ROOT\x7d/tests/lib/test_framework_core.sh\" ]]; then\n  source \"$\x7bSERVERSENTRY_ROOT\x7d/tests/lib/test_framework_core.sh\"\nfi\n"

/-- The UI-framework import block inserted by `add_framework_import`
(`consolidate_duplicates.py`, lines 72-77). -/
def ui_import_block : Text :=
  str "\n# Load unified UI framework\nif [[ -f \"$\x7bSERVERSENTRY_ROOT\x7d/lib/ui/common/print_utils.sh\" ]]; then\n  source \"$\x7bSERVERSENTRY_ROOT\x7d/lib/ui/common/print_utils.sh\"\nfi\n"

/-- Inner loop of `add_framework_import` (`consolidate_duplicates.py`,
lines 89-96): from the marker line at index `i` onward, find the first
index `j` whose stripped line is exactly `fi` and for which the
concatenation of `lines[i:j]` contains `bootstrap` case-insensitively;
`acc` carries `"".join(lines[i:j])`. -/
def findFiIdx : List Text → Text → Nat → Option Nat
  | [], _, _ => none
  | l :: ls, acc, j =>
    if trimText l = (str "fi") && containsSub (str "bootstrap") (lowerT acc) then some j
    else findFiIdx ls (acc ++ l) (j + 1)

/-- Outer loop of `add_framework_import` (`consolidate_duplicates.py`,
lines 86-87): first line containing `SERVERSENTRY_ENV_LOADED`, with its
index and the suffix of the line list starting there. -/
def findMarkerIdx : List Text → Nat → Option (Nat × List Text)
  | [], _ => none
  | l :: ls, i =>
    if containsSub (str "SERVERSENTRY_ENV_LOADED") l then some (i, l :: ls)
    else findMarkerIdx ls (i + 1)

/-- The insertion index computed by `add_framework_import`
(`consolidate_duplicates.py`, lines 82-96): just after the bootstrap
block's closing `fi`, else 0. -/
def insertIndexOf (lines : List Text) : Nat :=
  match findMarkerIdx lines 0 with
  | none => 0
  | some (i, suffix) =>
    match findFiIdx suffix [] i with
    | none => 0
    | some j => j + 1

/-- `add_framework_import(content, framework_type)`
(`consolidate_duplicates.py`, lines 62-100).  The multi-line import
block is inserted as a single element of the split line list (exactly as
`lines.insert(insert_index, import_block)` does) and then joined. -/
def add_framework_import (content : Text) (framework_type : String) : Text :=
  let block? : Option Text :=
    if framework_type = "test" then some test_import_block
    else if framework_type = "ui" then some ui_import_block
    else none
  match block? with
  | none => content
  | some block =>
    let lines := splitLines content
    joinLines (lines.insertIdx (insertIndexOf lines) block)

/-- The content transformation performed by
`DuplicateConsolidator.update_file` (`consolidate_duplicates.py`, lines
142-183): for each framework in turn (test, then UI), if the current
content mentions one of its functions, first insert the import block
unless the framework's source-path fragment is already a substring, then
strip the framework's function definitions.  The file write-back happens
iff the result differs from the original, so the on-disk content after
the call is always `update_file content`. -/
def update_file (original : Text) : Text :=
  let content := original
  let content :=
    if should_add_test_framework content then
      let content :=
        if ¬ (containsSub (str "test_framework_core.sh") content = true) then
          add_framework_import content "test"
        else content
      remove_duplicate_functions content test_functions
    else content
  let content :=
    if should_add_ui_framework content then
      let content :=
        if ¬ (containsSub (str "print_utils.sh") content = true) then
          add_framework_import content "ui"
        else content
      remove_duplicate_functions content ui_functions
    else content
  content

/-! ## Bootstrap Migrator (`migrate_bootstrap_simple.py`)

The regex substitution of `migrate_file` (lines 91-102) is abstracted as
a parameter `subst : Text → Text`; the script itself detects the no-match
case purely by `new_content == content` (line 105), which is the only
property of the substitution the claims depend on.  Possible failure of
the write-back (line 111-112) is modelled by a boolean `writeOk`. -/

/-- Observable per-file outcome of `migrate_file`
(`migrate_bootstrap_simple.py`, lines 76-124): the boolean return value,
which status line was printed, whether a `.backup` sibling survives, and
the file's final content.  The backup is a full copy of the
pre-modification content (line 87); on the no-change path it is removed
(line 107); on success it is removed after the write (line 115); on a
write failure the exception handler moves it back over the original path
(lines 121-123), which both restores the content and removes the backup. -/
structure FileOutcome where
  migrated : Bool
  reportedNoChange : Bool
  reportedFailed : Bool
  backupRemains : Bool
  finalContent : Text
  deriving DecidableEq, Repr

/-- `migrate_file` (`migrate_bootstrap_simple.py`, lines 76-124). -/
def migrate_file (subst : Text → Text) (writeOk : Bool) (content : Text) : FileOutcome :=
  let new_content := subst content
  if new_content = content then
    { migrated := false, reportedNoChange := true, reportedFailed := false,
      backupRemains := false, finalContent := content }
  else if writeOk then
    { migrated := true, reportedNoChange := false, reportedFailed := false,
      backupRemains := false, finalContent := new_content }
  else
    { migrated := false, reportedNoChange := false, reportedFailed := true,
      backupRemains := false, finalContent := content }

/-- `needs_migration` (`migrate_bootstrap_simple.py`, lines 66-73). -/
def needs_migration (content : Text) : Bool :=
  containsSub (str "lib/serversentry-bootstrap.sh") content

/-- Result of a whole migration run: the per-file outcomes for the files
selected for migration, and the process exit code. -/
structure MigrationRun where
  outcomes : List FileOutcome
  exitCode : Nat
  deriving DecidableEq, Repr

/-- `main` followed by `exit(0 if success else 1)`
(`migrate_bootstrap_simple.py`, lines 127-169): filter the discovered
files by `needs_migration`; when none remain, return success (exit 0);
otherwise run `migrate_file` on each in order, count every `False`
return in `error_count`, and exit 0 iff `error_count == 0`.  Each file
is given by its content and its `writeOk` flag. -/
def runMigration (subst : Text → Text) (files : List (Text × Bool)) : MigrationRun :=
  let files_to_migrate := files.filter (fun f => needs_migration f.1)
  match files_to_migrate with
  | [] => { outcomes := [], exitCode := 0 }
  | _ =>
    let outcomes := files_to_migrate.map (fun f => migrate_file subst f.2 f.1)
    let error_count := outcomes.countP (fun o => !o.migrated)
    { outcomes := outcomes, exitCode := if error_count = 0 then 0 else 1 }

/-! ## Duplicate/Audit Scanner (`project_cleanup_audit.py`) -/

/-- One step of `defaultdict(list)`: append `v` to the bucket of key `k`,
creating the bucket at the end of the (insertion-ordered) association
list when the key is new — exactly CPython dict semantics. -/
def insertEntry {κ : Type} [DecidableEq κ] (k : κ) (v : String) :
    List (κ × List String) → List (κ × List String)
  | [] => [(k, [v])]
  | g :: gs => if g.1 = k then (g.1, g.2 ++ [v]) :: gs else g :: insertEntry k v gs

/-- Bucket lookup in an association list. -/
def findGroup {κ : Type} [DecidableEq κ] (k : κ) : List (κ × List String) → Option (List String)
  | [] => none
  | g :: gs => if g.1 = k then some g.2 else findGroup k gs

/-- The `file_hashes` grouping of `find_duplicate_files`
(`project_cleanup_audit.py`, lines 51-58): files in traversal order,
each appended to the bucket of its content hash.  The MD5 digest is
abstracted as a parameter `h : Text → Nat`; the claims quantify over it. -/
def file_hashes (h : Text → Nat) (files : List (String × Text)) : List (Nat × List String) :=
  files.foldl (fun gs f => insertEntry (h f.2) f.1 gs) []

/-- The reporting loop of `find_duplicate_files`
(`project_cleanup_audit.py`, lines 65-75): for every bucket with more
than one member, all but the first are appended to `redundant_files` and
one `DUPLICATE_FILES` issue is logged, carrying `files[0]` as its file
field and the full member list in its description. -/
def dupOutputs : List (Nat × List String) → List String × List (String × List String)
  | [] => ([], [])
  | (_, p0 :: p1 :: ps) :: gs =>
    ((p1 :: ps) ++ (dupOutputs gs).1, (p0, p0 :: p1 :: ps) :: (dupOutputs gs).2)
  | (_, []) :: gs => dupOutputs gs
  | (_, [_]) :: gs => dupOutputs gs

/-- `find_duplicate_files` (`project_cleanup_audit.py`, lines 47-75):
returns the `redundant_files` list and the logged `DUPLICATE_FILES`
issues, each issue as (named first file, full member list). -/
def find_duplicate_files (h : Text → Nat) (files : List (String × Text)) :
    List String × List (String × List String) :=
  dupOutputs (file_hashes h files)

/-- A scanned file for the unused-file check: its `Path.name`, its text,
and whether `os.access(file_path, os.X_OK)` holds. -/
structure SFile where
  name : Text
  content : Text
  exec : Bool
  deriving DecidableEq, Repr

/-- Python `Path(name).stem`: the name with its last suffix removed; a
dot at position 0 or a trailing dot does not begin a suffix. -/
def pathStem (name : Text) : Text :=
  match name.reverse.findIdx? (fun c => c == '.') with
  | none => name
  | some k =>
    if 0 < k ∧ k < name.length - 1 then (name.reverse.drop (k + 1)).reverse else name

/-- `b` occurs in the text with no newline strictly before the
occurrence start: the `.*B` tail of a regex `A.*B` without `re.DOTALL`
(`.` does not match a newline). -/
def occursNoNl (b : Text) : Text → Bool
  | [] => startsWith b []
  | c :: cs => startsWith b (c :: cs) || (!(c == '\n') && occursNoNl b cs)

/-- `re.search` of the restricted regex shape `A.*B` (with `A`, `B`
literal after `re.escape`, no DOTALL): some position where `A` matches
literally, followed — with no intervening newline — by a literal match
of `B`. -/
def searchSeq (a b : Text) : Text → Bool
  | [] => startsWith a [] && occursNoNl b []
  | c :: cs =>
    (startsWith a (c :: cs) && occursNoNl b ((c :: cs).drop a.length)) || searchSeq a b cs

/-- `all_content` (`project_cleanup_audit.py`, lines 221-229): the
concatenation of every scanned file's text, each followed by a newline. -/
def auditCorpus (files : List SFile) : Text :=
  files.foldl (fun acc f => acc ++ f.content ++ [ '\n' ]) []

/-- The `referenced` test of `check_unused_files`
(`project_cleanup_audit.py`, lines 242-251): the four reference regexes
`source.*name`, `source.*stem`, `\..*name`, `stem\.sh`, searched in the
corpus with `re.IGNORECASE` (modelled by lowercasing both sides; all
involved text is ASCII). -/
def referenced (allContent : Text) (f : SFile) : Bool :=
  let al := lowerT allContent
  let nm := lowerT f.name
  let bn := lowerT (pathStem f.name)
  searchSeq (str "source") nm al || searchSeq (str "source") bn al ||
    searchSeq (str ".") nm al || containsSub (bn ++ (str ".sh")) al

/-- `skip_files` (`project_cleanup_audit.py`, line 237). -/
def skip_files : List Text := [ str "serversentry-env.sh", str "serversentry" ]

/-- `check_unused_files` (`project_cleanup_audit.py`, lines 216-259):
the files appended to `unused_files` (each of which also gets one
`MEDIUM`-severity `UNUSED_FILE` issue): not in the entry-point
allow-list, not referenced by any of the four corpus regexes, and not
executable. -/
def check_unused_files (files : List SFile) : List SFile :=
  let all := auditCorpus files
  files.filter (fun f => !(skip_files.contains f.name) && !(referenced all f) && !f.exec)

/-- `analyze_complexity` for one file (`project_cleanup_audit.py`, lines
267-303), returning the logged issues as (severity, category) pairs in
order.  `lines = f.readlines()`; a code line has nonempty strip not
starting with `#`; a comment line has strip starting with `#`.  The
documentation check is `total_lines > 50 and comment_lines / total_lines
< 0.1` in 64-bit floats; for any file with at most `10^15` lines the
float comparison agrees with the exact rational one, which is
`10 * comment_lines < total_lines`. -/
def total_lines (content : Text) : Nat := (readLines content).length

/-- `code_lines` of `analyze_complexity` (`project_cleanup_audit.py`,
lines 273-277): lines whose strip is nonempty and does not start with
`#`. -/
def code_lines (content : Text) : Nat :=
  (readLines content).countP
    (fun l => decide (trimText l ≠ []) && !(startsWith (str "#") (trimText l)))

/-- `comment_lines` of `analyze_complexity` (`project_cleanup_audit.py`,
line 278). -/
def comment_lines (content : Text) : Nat :=
  (readLines content).countP (fun l => startsWith (str "#") (trimText l))

def complexityIssues (content : Text) : List (String × String) :=
  (if 300 < code_lines content then [( "HIGH", "COMPLEX_FILE")]
   else if 200 < code_lines content then [( "MEDIUM", "COMPLEX_FILE")]
   else [])
    ++ (if 50 < total_lines content ∧ 10 * comment_lines content < total_lines content then
          [( "LOW", "LOW_DOCUMENTATION")]
        else [])

/-- Fueled scan implementing
`re.findall(r"^([a-zA-Z_][a-zA-Z0-9_]*)\s*\(\)\s*\x7b", content,
re.MULTILINE)` (`project_cleanup_audit.py`, lines 120-130): at every
line-start position (offset 0 or just after a newline) try the header
regex (whose `\s*` may span newlines); on a match, record the captured
name and resume — per `findall`'s non-overlapping scan — right after the
matched opening brace, which is never a line start; otherwise advance
one character.  Every step consumes fuel 1 and at least one character
(`headerMatchML` consumes at least four), so fuel `length + 1` is never
exhausted. -/
def scanHeadersF : Nat → Text → Bool → List Text
  | 0, _, _ => []
  | _ + 1, [], _ => []
  | fuel + 1, c :: cs, atStart =>
    if atStart then
      match headerMatchML (c :: cs) with
      | some (n, rest) => n :: scanHeadersF fuel rest false
      | none => scanHeadersF fuel cs (c == '\n')
    else scanHeadersF fuel cs (c == '\n')

/-- `function_pattern.findall(content)` (`project_cleanup_audit.py`,
line 130): the header names of a file in occurrence order. -/
def scanHeaders (content : Text) : List Text :=
  scanHeadersF (content.length + 1) content true

/-- The registry built by `find_duplicate_functions`
(`project_cleanup_audit.py`, lines 125-136): for each file in traversal
order, each `findall` occurrence appends the file path to the bucket of
the function name — one entry per occurrence, not per distinct file. -/
def buildRegistry (files : List (String × Text)) : List (Text × List String) :=
  files.foldl (fun gs f => (scanHeaders f.2).foldl (fun gs n => insertEntry n f.1 gs) gs) []

/-- The reporting loop of `find_duplicate_functions`
(`project_cleanup_audit.py`, lines 139-146): one `DUPLICATE_FUNCTION`
issue per bucket with more than one entry, as (named first file,
function name, full bucket). -/
def dupFnIssues (registry : List (Text × List String)) : List (String × Text × List String) :=
  registry.filterMap (fun g =>
    match g.2 with
    | p0 :: p1 :: ps => some (p0, g.1, p0 :: p1 :: ps)
    | _ => none)

/-- `find_duplicate_functions` (`project_cleanup_audit.py`, lines
116-146), as the list of logged `DUPLICATE_FUNCTION` issues. -/
def find_duplicate_functions (files : List (String × Text)) : List (String × Text × List String) :=
  dupFnIssues (buildRegistry files)

/-! ## Basic lemmas about the text primitives -/

theorem startsWith_iff {p t : Text} : startsWith p t = true ↔ ∃ r, t = p ++ r := by
  induction p generalizing t with
  | nil => simp [startsWith]
  | cons a as ih =>
    cases t with
    | nil => simp [startsWith]
    | cons b bs =>
      simp only [startsWith, Bool.and_eq_true, decide_eq_true_eq, ih, List.cons_append,
        List.cons.injEq]
      constructor
      · rintro ⟨rfl, r, rfl⟩; exact ⟨r, rfl, rfl⟩
      · rintro ⟨r, rfl, rfl⟩; exact ⟨rfl, r, rfl⟩

theorem containsSub_iff {p t : Text} : containsSub p t = true ↔ ∃ a b, t = a ++ p ++ b := by
  induction t with
  | nil =>
    simp only [containsSub, startsWith_iff]
    constructor
    · rintro ⟨r, h⟩
      rcases List.append_eq_nil.mp h.symm with ⟨rfl, rfl⟩
      exact ⟨[], [], rfl⟩
    · rintro ⟨a, b, h⟩
      rcases List.append_eq_nil.mp h.symm with ⟨h1, rfl⟩
      rcases List.append_eq_nil.mp h1 with ⟨rfl, rfl⟩
      exact ⟨[], rfl⟩
  | cons c cs ih =>
    simp only [containsSub, Bool.or_eq_true, startsWith_iff, ih]
    constructor
    · rintro (⟨r, h⟩ | ⟨a, b, rfl⟩)
      · exact ⟨[], r, by simpa using h⟩
      · exact ⟨c :: a, b, by simp⟩
    · rintro ⟨a, b, h⟩
      cases a with
      | nil => exact Or.inl ⟨b, by simpa using h⟩
      | cons x xs =>
        rw [List.cons_append, List.cons_append] at h
        injection h with h1 h2
        exact Or.inr ⟨xs, b, h2⟩

theorem splitLines_ne_nil (t : Text) : splitLines t ≠ [] := by
  cases t with
  | nil => simp [splitLines]
  | cons c cs =>
    simp only [splitLines]
    split
    · simp
    · split <;> simp

theorem noNl_of_mem_splitLines {t l : Text} (h : l ∈ splitLines t) : '\n' ∉ l := by
  induction t generalizing l with
  | nil =>
    simp only [splitLines, List.mem_singleton] at h
    subst h; simp
  | cons c cs ih =>
    simp only [splitLines] at h
    split at h
    · rcases List.mem_cons.mp h with rfl | h
      · simp
      · exact ih h
    · rename_i hc
      rcases hsp : splitLines cs with _ | ⟨m, ms⟩
      · exact absurd hsp (splitLines_ne_nil cs)
      · rw [hsp] at h
        rcases List.mem_cons.mp h with rfl | h
        · intro hmem
          rcases List.mem_cons.mp hmem with rfl | hmem
          · exact hc rfl
          · exact ih (hsp ▸ List.mem_cons_self m ms) hmem
        · exact ih (hsp ▸ List.mem_cons_of_mem m h)

theorem joinLines_cons_cons (c : Char) (l : Text) (ls : List Text) :
    joinLines ((c :: l) :: ls) = c :: joinLines (l :: ls) := by
  cases ls <;> rfl

theorem joinLines_nil_cons (l : Text) (ls : List Text) :
    joinLines ([] :: l :: ls) = '\n' :: joinLines (l :: ls) := rfl

theorem joinLines_splitLines (t : Text) : joinLines (splitLines t) = t := by
  induction t with
  | nil => rfl
  | cons c cs ih =>
    simp only [splitLines]
    split
    · rename_i hc
      rcases hsp : splitLines cs with _ | ⟨m, ms⟩
      · exact absurd hsp (splitLines_ne_nil cs)
      · rw [hsp] at ih
        rw [joinLines_nil_cons, ih, hc]
    · rcases hsp : splitLines cs with _ | ⟨m, ms⟩
      · exact absurd hsp (splitLines_ne_nil cs)
      · rw [hsp] at ih
        rw [joinLines_cons_cons, ih]

theorem splitLines_append_newline (a b : Text) :
    splitLines (a ++ '\n' :: b) = splitLines a ++ splitLines b := by
  induction a with
  | nil => simp [splitLines]
  | cons c cs ih =>
    simp only [List.cons_append, splitLines, List.append_eq]
    split
    · rw [ih]; rfl
    · rcases hsp : splitLines cs with _ | ⟨m, ms⟩
      · exact absurd hsp (splitLines_ne_nil cs)
      · rw [hsp] at ih
        rw [ih]
        rcases hsp2 : splitLines (cs ++ '\n' :: b) with _ | ⟨m2, ms2⟩
        · exact absurd hsp2 (splitLines_ne_nil _)
        · rw [hsp2] at ih
          injection ih with ih1 ih2
          subst ih1; subst ih2
          rfl

theorem splitLines_noNl {l : Text} (h : '\n' ∉ l) : splitLines l = [l] := by
  induction l with
  | nil => rfl
  | cons c cs ih =>
    simp only [splitLines]
    have hc : ¬ c = '\n' := fun hh => h (hh ▸ List.mem_cons_self c cs)
    rw [if_neg hc, ih (fun hm => h (List.mem_cons_of_mem c hm))]

theorem splitLines_joinLines {ls : List Text} (hne : ls ≠ [])
    (hnl : ∀ l ∈ ls, '\n' ∉ l) : splitLines (joinLines ls) = ls := by
  induction ls with
  | nil => exact absurd rfl hne
  | cons x xs ih =>
    cases xs with
    | nil => exact splitLines_noNl (hnl x (List.mem_cons_self x []))
    | cons y ys =>
      have : joinLines (x :: y :: ys) = x ++ '\n' :: joinLines (y :: ys) := rfl
      rw [this, splitLines_append_newline,
        splitLines_noNl (hnl x (List.mem_cons_self x _)),
        ih (by simp) (fun l hl => hnl l (List.mem_cons_of_mem x hl))]
      rfl

theorem mem_splitLines_joinLines {ls : List Text} {l : Text}
    (h : l ∈ splitLines (joinLines ls)) :
    (∃ x ∈ ls, l ∈ splitLines x) ∨ l = [] := by
  induction ls with
  | nil =>
    right
    simpa [joinLines, splitLines] using h
  | cons x xs ih =>
    cases xs with
    | nil =>
      left
      exact ⟨x, List.mem_cons_self x [], h⟩
    | cons y ys =>
      have hj : joinLines (x :: y :: ys) = x ++ '\n' :: joinLines (y :: ys) := rfl
      rw [hj, splitLines_append_newline] at h
      rcases List.mem_append.mp h with h | h
      · exact Or.inl ⟨x, List.mem_cons_self x _, h⟩
      · rcases ih h with ⟨z, hz, hlz⟩ | rfl
        · exact Or.inl ⟨z, List.mem_cons_of_mem x hz, hlz⟩
        · exact Or.inr rfl

theorem splitLines_head_prefix (t : Text) :
    ∃ r, t = (splitLines t).headD [] ++ r := by
  induction t with
  | nil => exact ⟨[], rfl⟩
  | cons c cs ih =>
    simp only [splitLines]
    split
    · rename_i hc
      exact ⟨c :: cs, by simp⟩
    · rcases hsp : splitLines cs with _ | ⟨m, ms⟩
      · exact absurd hsp (splitLines_ne_nil cs)
      · rw [hsp] at ih
        rcases ih with ⟨r, hr⟩
        exact ⟨r, by simpa using congrArg (c :: ·) hr⟩

theorem mem_splitLines_decomp {t l : Text} (h : l ∈ splitLines t) :
    ∃ a b, t = a ++ l ++ b := by
  induction t generalizing l with
  | nil =>
    simp only [splitLines, List.mem_singleton] at h
    subst h; exact ⟨[], [], rfl⟩
  | cons c cs ih =>
    simp only [splitLines] at h
    split at h
    · rcases List.mem_cons.mp h with rfl | h
      · exact ⟨[], c :: cs, rfl⟩
      · rcases ih h with ⟨a, b, rfl⟩
        exact ⟨c :: a, b, rfl⟩
    · rcases hsp : splitLines cs with _ | ⟨m, ms⟩
      · exact absurd hsp (splitLines_ne_nil cs)
      · rw [hsp] at h
        rcases List.mem_cons.mp h with rfl | h
        · rcases splitLines_head_prefix cs with ⟨r, hr⟩
          rw [hsp] at hr
          simp only [List.headD_cons] at hr
          exact ⟨[], r, by simp [hr]⟩
        · rcases ih (hsp ▸ List.mem_cons_of_mem m h) with ⟨a, b, rfl⟩
          exact ⟨c :: a, b, rfl⟩

/-! ## Lemmas about the Function Remover -/

/-- `l` is not a function-definition header for any name in `fns`. -/
def NoHeaderIn (fns : List Text) (l : Text) : Prop :=
  ∀ n, headerName l = some n → n ∉ fns

instance (fns : List Text) (l : Text) : Decidable (NoHeaderIn fns l) := by
  unfold NoHeaderIn; infer_instance

theorem removeDupAux_cons_true_exit {fns : List Text} {l : Text} {ls : List Text} {bc : Int}
    (h : bc + braceDelta l ≤ 0) :
    removeDupAux fns (l :: ls) true bc = removeDupAux fns ls false 0 := by
  simp only [removeDupAux, if_pos h]

theorem removeDupAux_cons_true_stay {fns : List Text} {l : Text} {ls : List Text} {bc : Int}
    (h : ¬ bc + braceDelta l ≤ 0) :
    removeDupAux fns (l :: ls) true bc = removeDupAux fns ls true (bc + braceDelta l) := by
  simp only [removeDupAux, if_neg h]

theorem removeDupAux_cons_false_none {fns : List Text} {l : Text} {ls : List Text} {bc : Int}
    (h : headerName l = none) :
    removeDupAux fns (l :: ls) false bc = l :: removeDupAux fns ls false 0 := by
  simp only [removeDupAux, h]

theorem removeDupAux_cons_false_mem {fns : List Text} {l n : Text} {ls : List Text} {bc : Int}
    (h : headerName l = some n) (hm : n ∈ fns) :
    removeDupAux fns (l :: ls) false bc = removeDupAux fns ls true (braceDelta l) := by
  simp only [removeDupAux, h, if_pos hm]

theorem removeDupAux_cons_false_notmem {fns : List Text} {l n : Text} {ls : List Text} {bc : Int}
    (h : headerName l = some n) (hm : n ∉ fns) :
    removeDupAux fns (l :: ls) false bc = l :: removeDupAux fns ls false 0 := by
  simp only [removeDupAux, h, if_neg hm]

theorem removeDupAux_sublist (fns : List Text) :
    ∀ (ls : List Text) (st : Bool) (bc : Int), List.Sublist (removeDupAux fns ls st bc) ls := by
  intro ls
  induction ls with
  | nil => intro st bc; simp [removeDupAux]
  | cons l ls ih =>
    intro st bc
    cases st with
    | true =>
      by_cases h : bc + braceDelta l ≤ 0
      · rw [removeDupAux_cons_true_exit h]; exact (ih false 0).cons l
      · rw [removeDupAux_cons_true_stay h]; exact (ih true _).cons l
    | false =>
      rcases h : headerName l with _ | n
      · rw [removeDupAux_cons_false_none h]; exact (ih false 0).cons₂ l
      · by_cases hm : n ∈ fns
        · rw [removeDupAux_cons_false_mem h hm]; exact (ih true _).cons l
        · rw [removeDupAux_cons_false_notmem h hm]; exact (ih false 0).cons₂ l

theorem removeDupAux_noHeader (fns : List Text) :
    ∀ (ls : List Text) (st : Bool) (bc : Int) (l : Text),
      l ∈ removeDupAux fns ls st bc → NoHeaderIn fns l := by
  intro ls
  induction ls with
  | nil => intro st bc l h; simp [removeDupAux] at h
  | cons x ls ih =>
    intro st bc l h
    cases st with
    | true =>
      by_cases hb : bc + braceDelta x ≤ 0
      · rw [removeDupAux_cons_true_exit hb] at h; exact ih false 0 l h
      · rw [removeDupAux_cons_true_stay hb] at h; exact ih true _ l h
    | false =>
      rcases hx : headerName x with _ | n
      · rw [removeDupAux_cons_false_none hx] at h
        rcases List.mem_cons.mp h with rfl | h
        · intro n hn; rw [hx] at hn; cases hn
        · exact ih false 0 l h
      · by_cases hm : n ∈ fns
        · rw [removeDupAux_cons_false_mem hx hm] at h; exact ih true _ l h
        · rw [removeDupAux_cons_false_notmem hx hm] at h
          rcases List.mem_cons.mp h with rfl | h
          · intro n' hn'
            rw [hx] at hn'
            injection hn' with hn'
            subst hn'
            exact hm
          · exact ih false 0 l h

theorem removeDupAux_id (fns : List Text) :
    ∀ (ls : List Text) (bc : Int), (∀ l ∈ ls, NoHeaderIn fns l) →
      removeDupAux fns ls false bc = ls := by
  intro ls
  induction ls with
  | nil => intro bc _; rfl
  | cons x ls ih =>
    intro bc hall
    rcases hx : headerName x with _ | n
    · rw [removeDupAux_cons_false_none hx, ih 0 (fun l hl => hall l (List.mem_cons_of_mem x hl))]
    · rw [removeDupAux_cons_false_notmem hx (hall x (List.mem_cons_self x ls) n hx),
        ih 0 (fun l hl => hall l (List.mem_cons_of_mem x hl))]

/-- The captured identifier is a prefix of the matched text. -/
theorem headerMatchML_fst {t n r : Text} (h : headerMatchML t = some (n, r)) :
    ∃ u, t = n ++ u := by
  cases t with
  | nil => simp [headerMatchML] at h
  | cons c cs =>
    simp only [headerMatchML] at h
    split at h
    · split at h
      · split at h
        · injection h with h
          injection h with h1 h2
          subst h1
          exact ⟨cs.dropWhile isWordChar, by
            simp [List.takeWhile_append_dropWhile]⟩
        · cases h
      · cases h
    · cases h

/-- The stripped text sits inside the original text. -/
theorem trimText_decomp (l : Text) : ∃ a b, l = a ++ trimText l ++ b := by
  refine ⟨l.takeWhile isSpacePy, ((l.dropWhile isSpacePy).reverse.takeWhile isSpacePy).reverse, ?_⟩
  have h3 : l.dropWhile isSpacePy =
      trimText l ++ ((l.dropWhile isSpacePy).reverse.takeWhile isSpacePy).reverse :=
    calc l.dropWhile isSpacePy
        = (l.dropWhile isSpacePy).reverse.reverse := (List.reverse_reverse _).symm
      _ = ((l.dropWhile isSpacePy).reverse.takeWhile isSpacePy ++
            (l.dropWhile isSpacePy).reverse.dropWhile isSpacePy).reverse := by
            rw [List.takeWhile_append_dropWhile]
      _ = trimText l ++ ((l.dropWhile isSpacePy).reverse.takeWhile isSpacePy).reverse := by
            rw [List.reverse_append]; rfl
  calc l = l.takeWhile isSpacePy ++ l.dropWhile isSpacePy :=
        (List.takeWhile_append_dropWhile _ _).symm
    _ = l.takeWhile isSpacePy ++
          (trimText l ++ ((l.dropWhile isSpacePy).reverse.takeWhile isSpacePy).reverse) :=
        congrArg (l.takeWhile isSpacePy ++ ·) h3
    _ = l.takeWhile isSpacePy ++ trimText l ++
          ((l.dropWhile isSpacePy).reverse.takeWhile isSpacePy).reverse := by
        rw [List.append_assoc]

/-- A matched header name occurs inside its line. -/
theorem headerName_decomp {l n : Text} (h : headerName l = some n) :
    ∃ a b, l = a ++ n ++ b := by
  unfold headerName at h
  rcases hm : headerMatchML (trimText l) with _ | ⟨n', r⟩
  · rw [hm] at h; cases h
  · rw [hm] at h
    injection h with h
    subst h
    rcases headerMatchML_fst hm with ⟨u, hu⟩
    rcases trimText_decomp l with ⟨a, b, hl⟩
    exact ⟨a, u ++ b, by rw [hl, hu]; simp⟩

/-- If a name of `fns` matches a header of some line of `t`, that name is
a substring of `t`; contrapositive of the no-header property. -/
theorem containsSub_of_header {t l n : Text} (hl : l ∈ splitLines t)
    (hn : headerName l = some n) : containsSub n t = true := by
  rcases mem_splitLines_decomp hl with ⟨a, b, rfl⟩
  rcases headerName_decomp hn with ⟨a', b', rfl⟩
  refine containsSub_iff.mpr ⟨a ++ a', b' ++ b, by simp⟩

theorem headerName_nil : headerName ([] : Text) = none := rfl

/-- Helper: removing from a joined line list whose lines contain no
newline and no deleted header is the identity. -/
theorem remove_joinLines_id {fns : List Text} {out : List Text}
    (hnl : ∀ l ∈ out, '\n' ∉ l) (hnh : ∀ l ∈ out, NoHeaderIn fns l) :
    remove_duplicate_functions (joinLines out) fns = joinLines out := by
  cases out with
  | nil => rfl
  | cons x xs =>
    unfold remove_duplicate_functions
    rw [splitLines_joinLines (by simp) hnl, removeDupAux_id fns _ 0 hnh]

/-- No line of the remover's output is a header for a deleted name. -/
theorem remove_lines_noHeader (content : Text) (fns : List Text) :
    ∀ l ∈ splitLines (remove_duplicate_functions content fns), NoHeaderIn fns l := by
  intro l hl
  have hl' : l ∈ splitLines (joinLines (removeDupAux fns (splitLines content) false 0)) := hl
  rcases hout : removeDupAux fns (splitLines content) false 0 with _ | ⟨x, xs⟩
  · rw [hout] at hl'
    simp only [joinLines, splitLines, List.mem_singleton] at hl'
    subst hl'
    intro n hn
    rw [headerName_nil] at hn
    cases hn
  · rw [hout] at hl'
    rw [splitLines_joinLines (by simp)
      (fun m hm => noNl_of_mem_splitLines
        ((removeDupAux_sublist fns (splitLines content) false 0).subset (hout ▸ hm)))] at hl'
    exact removeDupAux_noHeader fns (splitLines content) false 0 l (hout ▸ hl')

/-- When no input line is a header for a deleted name, the remover is
the identity. -/
theorem remove_id_of_noHeader {content : Text} {fns : List Text}
    (hall : ∀ l ∈ splitLines content, NoHeaderIn fns l) :
    remove_duplicate_functions content fns = content := by
  unfold remove_duplicate_functions
  rw [removeDupAux_id fns _ 0 hall, joinLines_splitLines]

/-- Every line of the remover's output is a line of the input or empty. -/
theorem remove_lines_subset (content : Text) (fns : List Text) :
    ∀ l ∈ splitLines (remove_duplicate_functions content fns),
      l ∈ splitLines content ∨ l = [] := by
  intro l hl
  have hl' : l ∈ splitLines (joinLines (removeDupAux fns (splitLines content) false 0)) := hl
  rcases hout : removeDupAux fns (splitLines content) false 0 with _ | ⟨x, xs⟩
  · rw [hout] at hl'
    simp only [joinLines, splitLines, List.mem_singleton] at hl'
    exact Or.inr hl'
  · rw [hout] at hl'
    rw [splitLines_joinLines (by simp)
      (fun m hm => noNl_of_mem_splitLines
        ((removeDupAux_sublist fns (splitLines content) false 0).subset (hout ▸ hm)))] at hl'
    exact Or.inl ((removeDupAux_sublist fns (splitLines content) false 0).subset (hout ▸ hl'))

/-- C3: the three guarantees of the Function Remover.  (1) No line of the
output text is a function-definition header whose captured name is in the
deletion set.  (2) The emitted line list is a sublist of the input line
list: every emitted line is byte-identical to an input line and they
appear in the original order.  (3) If no input line is a header for a
name in the deletion set, the output text equals the input text. -/
theorem C3_function_remover_guarantee (content : Text) (fns : List Text) :
    (∀ l ∈ splitLines (remove_duplicate_functions content fns), NoHeaderIn fns l) ∧
    List.Sublist (removeDupAux fns (splitLines content) false 0) (splitLines content) ∧
    ((∀ l ∈ splitLines content, NoHeaderIn fns l) →
      remove_duplicate_functions content fns = content) :=
  ⟨remove_lines_noHeader content fns, removeDupAux_sublist fns _ false 0,
    fun hall => remove_id_of_noHeader hall⟩

/-- Witness for C3 at a concrete input: no header for a name in the
deletion set occurs, so the output equals the input. -/
theorem C3_function_remover_guarantee_witness :
    remove_duplicate_functions (str "hello\nworld") [ str "foo" ] = (str "hello\nworld") :=
  (C3_function_remover_guarantee (str "hello\nworld") [ str "foo" ]).2.2 (by decide)

/-- C5: removing a fixed deletion set twice yields the same text as
removing it once — `remove_duplicate_functions` is idempotent. -/
theorem C5_function_remover_idempotent (content : Text) (fns : List Text) :
    remove_duplicate_functions (remove_duplicate_functions content fns) fns =
      remove_duplicate_functions content fns := by
  show remove_duplicate_functions
      (joinLines (removeDupAux fns (splitLines content) false 0)) fns =
    joinLines (removeDupAux fns (splitLines content) false 0)
  refine remove_joinLines_id ?_ ?_
  · intro l hl
    exact noNl_of_mem_splitLines
      ((removeDupAux_sublist fns (splitLines content) false 0).subset hl)
  · intro l hl
    exact removeDupAux_noHeader fns (splitLines content) false 0 l hl

/-- The nested-braces scenario input of C4:
`foo() ¤ / if true; then / echo "¤" / fi / ¤ / bar() ¤ / echo ok / ¤` with
a literal opening brace inside the string literal on the third line. -/
def c4_input : Text :=
  str "foo() \x7b\n  if true; then\n    echo \"\x7b\"\n  fi\n\x7d\nbar() \x7b\n  echo ok\n\x7d\n"

/-- C4, counterexample: deleting `foo` from the nested-braces scenario
input does NOT yield the `bar`-only text the claim asserts — the literal
opening brace inside the string literal keeps the brace counter
positive, so deletion never terminates. -/
theorem C4_counterexample :
    ¬ (remove_duplicate_functions c4_input [ str "foo" ] =
        str "bar() \x7b\n  echo ok\n\x7d\n") := by decide

/-- C4, amended: on the nested-braces scenario input with deletion set
containing exactly `foo`, the unmatched brace inside the string literal
on line 3 inflates the running brace count, the skip never ends, and the
whole remainder of the file — including the `bar` function — is dropped:
the output is the empty text. -/
theorem C4_amended :
    remove_duplicate_functions c4_input [ str "foo" ] = ([] : Text) := by decide

/-! ## Claims about the Bootstrap Migrator -/

/-- A no-match `migrate_file` call is a no-op: reported as no changes,
backup removed, content untouched, return value `False`. -/
theorem migrate_file_noop {subst : Text → Text} {c : Text} (wok : Bool)
    (h : subst c = c) :
    migrate_file subst wok c =
      { migrated := false, reportedNoChange := true, reportedFailed := false,
        backupRemains := false, finalContent := c } := by
  simp [migrate_file, h]

/-- A file selected for migration that contains the legacy bootstrap
path fragment, on which the (abstracted) pattern substitution finds no
match. -/
def c1_file : Text := str "source lib/serversentry-bootstrap.sh"

/-- C1, counterexample: a migration run whose single processed file is a
no-op (the substitution changes nothing) exits with code 1, not 0 —
even though the file is reported as `no changes made` and its transient
backup is removed.  `main` counts every `False` return of
`migrate_file`, including the no-op path, in `error_count`. -/
theorem C1_counterexample :
    (runMigration (fun t => t) [(c1_file, true)]).exitCode = 1 ∧
    (migrate_file (fun t => t) true c1_file).reportedNoChange = true ∧
    (migrate_file (fun t => t) true c1_file).backupRemains = false := by decide

/-- C1, amended: when the replacement pattern matches no processed
file's content, each file is indeed reported as `no changes made` with
its transient backup removed — but a run with at least one processed
file ends with process exit code 1, because each no-op return is tallied
into `error_count` by `main`. -/
theorem C1_amended (subst : Text → Text) (files : List (Text × Bool))
    (hno : ∀ f ∈ files, needs_migration f.1 = true → subst f.1 = f.1)
    (hne : files.filter (fun f => needs_migration f.1) ≠ []) :
    (runMigration subst files).exitCode = 1 ∧
    ∀ o ∈ (runMigration subst files).outcomes,
      o.reportedNoChange = true ∧ o.backupRemains = false ∧
      o.migrated = false ∧ o.reportedFailed = false ∧
      ∃ f ∈ files, o.finalContent = f.1 := by
  have houtc : ∀ f ∈ files.filter (fun f => needs_migration f.1),
      migrate_file subst f.2 f.1 =
        { migrated := false, reportedNoChange := true, reportedFailed := false,
          backupRemains := false, finalContent := f.1 } := by
    intro f hf
    rcases List.mem_filter.mp hf with ⟨hmem, hpred⟩
    exact migrate_file_noop f.2 (hno f hmem hpred)
  rcases htm : files.filter (fun f => needs_migration f.1) with _ | ⟨f0, fs⟩
  · exact absurd htm hne
  · have hrun : runMigration subst files =
        { outcomes := (f0 :: fs).map (fun f => migrate_file subst f.2 f.1),
          exitCode :=
            if ((f0 :: fs).map (fun f => migrate_file subst f.2 f.1)).countP
                (fun o => !o.migrated) = 0 then 0 else 1 } := by
      unfold runMigration
      rw [htm]
    constructor
    · rw [hrun]
      have hcnt : ((f0 :: fs).map (fun f => migrate_file subst f.2 f.1)).countP
          (fun o => !o.migrated) = fs.length + 1 := by
        rw [List.countP_eq_length.mpr]
        · simp
        · intro o ho
          rcases List.mem_map.mp ho with ⟨f, hf, rfl⟩
          rw [houtc f (htm ▸ hf)]
          rfl
      dsimp only
      rw [hcnt]
      simp
    · intro o ho
      rw [hrun] at ho
      rcases List.mem_map.mp ho with ⟨f, hf, rfl⟩
      rw [houtc f (htm ▸ hf)]
      refine ⟨rfl, rfl, rfl, rfl, f, ?_, rfl⟩
      exact (List.mem_filter.mp (htm ▸ hf)).1

/-- Witness for C1's amended claim at a concrete input: one selected
no-op file, exit code 1. -/
theorem C1_amended_witness :
    (runMigration (fun t => t) [(c1_file, true)]).exitCode = 1 :=
  (C1_amended (fun t => t) [(c1_file, true)] (by decide) (by decide)).1

/-- C2: if the write-back of a transformed file fails, the
pre-modification backup is restored: the file's final content equals its
content before the run, no `.backup` sibling remains, and the file is
reported as failed (return value `False`).  Moreover the batch driver
processes every selected file regardless: the run has exactly one
outcome per selected file. -/
theorem C2_write_failure_restores (subst : Text → Text) (c : Text)
    (h : subst c ≠ c) :
    migrate_file subst false c =
      { migrated := false, reportedNoChange := false, reportedFailed := true,
        backupRemains := false, finalContent := c } ∧
    ∀ (files : List (Text × Bool)),
      (runMigration subst files).outcomes.length =
        (files.filter (fun f => needs_migration f.1)).length := by
  constructor
  · simp [migrate_file, h]
  · intro files
    rcases htm : files.filter (fun f => needs_migration f.1) with _ | ⟨f0, fs⟩
    · have hrun : runMigration subst files = { outcomes := [], exitCode := 0 } := by
        unfold runMigration; rw [htm]
      rw [hrun, htm]
      rfl
    · have hrun : runMigration subst files =
          { outcomes := (f0 :: fs).map (fun f => migrate_file subst f.2 f.1),
            exitCode :=
              if ((f0 :: fs).map (fun f => migrate_file subst f.2 f.1)).countP
                  (fun o => !o.migrated) = 0 then 0 else 1 } := by
        unfold runMigration; rw [htm]
      rw [hrun, htm]
      simp
/-- Witness for C2 at a concrete input: a substitution that rewrites the
content, with the write failing. -/
theorem C2_write_failure_restores_witness :
    migrate_file (fun _ => str "CHANGED") false (str "orig") =
      { migrated := false, reportedNoChange := false, reportedFailed := true,
        backupRemains := false, finalContent := str "orig" } :=
  (C2_write_failure_restores (fun _ => str "CHANGED") (str "orig") (by decide)).1

/-! ## Claim about the complexity audit -/

/-- C9: a file with more than 300 non-blank non-comment lines is flagged
HIGH (and not MEDIUM); one with more than 200 but at most 300 is flagged
MEDIUM (and not HIGH); one with at most 200 gets no complexity issue at
all; and a LOW_DOCUMENTATION issue is logged exactly when the file has
more than 50 total lines and its comment-to-total ratio is below 10%
(i.e. `10 * comment_lines < total_lines`; the script's float comparison
against `0.1` agrees with this exact comparison for any realistic line
count). -/
theorem C9_complexity_thresholds (content : Text) :
    (300 < code_lines content →
      ( "HIGH", "COMPLEX_FILE") ∈ complexityIssues content ∧
      ( "MEDIUM", "COMPLEX_FILE") ∉ complexityIssues content) ∧
    (200 < code_lines content ∧ code_lines content ≤ 300 →
      ( "MEDIUM", "COMPLEX_FILE") ∈ complexityIssues content ∧
      ( "HIGH", "COMPLEX_FILE") ∉ complexityIssues content) ∧
    (code_lines content ≤ 200 →
      ∀ s, (s, "COMPLEX_FILE") ∉ complexityIssues content) ∧
    (( "LOW", "LOW_DOCUMENTATION") ∈ complexityIssues content ↔
      50 < total_lines content ∧ 10 * comment_lines content < total_lines content) := by
  unfold complexityIssues
  refine ⟨?_, ?_, ?_, ?_⟩
  · intro h
    rw [if_pos h]
    split_ifs <;> simp
  · rintro ⟨h1, h2⟩
    rw [if_neg (by omega), if_pos h1]
    split_ifs <;> simp
  · intro h s
    rw [if_neg (by omega), if_neg (by omega)]
    split_ifs <;> simp
  · split_ifs <;> simp <;> omega

/-- A file with 301 code lines (and no comments). -/
def file301 : Text := joinLines (List.replicate 301 (str "x"))

set_option maxRecDepth 8000 in
/-- Witness for C9 at a concrete input: 301 code lines is flagged HIGH
and not MEDIUM. -/
theorem C9_complexity_thresholds_witness :
    ( "HIGH", "COMPLEX_FILE") ∈ complexityIssues file301 ∧
    ( "MEDIUM", "COMPLEX_FILE") ∉ complexityIssues file301 :=
  (C9_complexity_thresholds file301).1 (by decide)

/-! ## Lemmas about defaultdict grouping -/

/-- The bucket of key `k`, or `[]` when absent. -/
def bucketOf {κ : Type} [DecidableEq κ] (k : κ) (gs : List (κ × List String)) : List String :=
  (findGroup k gs).getD []

/-- Folding `insertEntry` over a list of key-value pairs. -/
def insertAll {κ : Type} [DecidableEq κ] (gs : List (κ × List String))
    (kvs : List (κ × String)) : List (κ × List String) :=
  kvs.foldl (fun gs kv => insertEntry kv.1 kv.2 gs) gs

theorem findGroup_insertEntry_self {κ : Type} [DecidableEq κ] (k : κ) (v : String) :
    ∀ gs, findGroup k (insertEntry k v gs) = some (bucketOf k gs ++ [v]) := by
  intro gs
  induction gs with
  | nil => simp [insertEntry, findGroup, bucketOf]
  | cons g rest ih =>
    by_cases h : g.1 = k
    · rw [show insertEntry k v (g :: rest) = (g.1, g.2 ++ [v]) :: rest by
        simp [insertEntry, h]]
      rw [show findGroup k ((g.1, g.2 ++ [v]) :: rest) = some (g.2 ++ [v]) by
        simp [findGroup, h]]
      rw [show bucketOf k (g :: rest) = g.2 by simp [bucketOf, findGroup, h]]
    · rw [show insertEntry k v (g :: rest) = g :: insertEntry k v rest by
        simp [insertEntry, h]]
      rw [show findGroup k (g :: insertEntry k v rest) = findGroup k (insertEntry k v rest) by
        simp [findGroup, h]]
      rw [ih, show bucketOf k (g :: rest) = bucketOf k rest by simp [bucketOf, findGroup, h]]

theorem findGroup_insertEntry_other {κ : Type} [DecidableEq κ] {k k' : κ} (hne : k' ≠ k)
    (v : String) : ∀ gs, findGroup k' (insertEntry k v gs) = findGroup k' gs := by
  intro gs
  induction gs with
  | nil =>
    show findGroup k' [(k, [v])] = none
    simp only [findGroup]
    rw [if_neg (fun h => hne h.symm)]
  | cons g rest ih =>
    by_cases h : g.1 = k
    · rw [show insertEntry k v (g :: rest) = (g.1, g.2 ++ [v]) :: rest by
        simp [insertEntry, h]]
      have hgk : ¬ g.1 = k' := fun hh => hne (h ▸ hh).symm
      rw [show findGroup k' ((g.1, g.2 ++ [v]) :: rest) = findGroup k' rest by
        simp [findGroup, hgk]]
      rw [show findGroup k' (g :: rest) = findGroup k' rest by simp [findGroup, hgk]]
    · rw [show insertEntry k v (g :: rest) = g :: insertEntry k v rest by
        simp [insertEntry, h]]
      by_cases hg : g.1 = k'
      · rw [show findGroup k' (g :: insertEntry k v rest) = some g.2 by
          simp [findGroup, hg]]
        rw [show findGroup k' (g :: rest) = some g.2 by simp [findGroup, hg]]
      · rw [show findGroup k' (g :: insertEntry k v rest) = findGroup k' (insertEntry k v rest) by
          simp [findGroup, hg]]
        rw [ih, show findGroup k' (g :: rest) = findGroup k' rest by simp [findGroup, hg]]

theorem keys_insertEntry {κ : Type} [DecidableEq κ] (k : κ) (v : String) :
    ∀ gs : List (κ × List String),
      (insertEntry k v gs).map Prod.fst =
        if k ∈ gs.map Prod.fst then gs.map Prod.fst else gs.map Prod.fst ++ [k] := by
  intro gs
  induction gs with
  | nil => simp [insertEntry]
  | cons g rest ih =>
    by_cases h : g.1 = k
    · rw [show insertEntry k v (g :: rest) = (g.1, g.2 ++ [v]) :: rest by
        simp [insertEntry, h]]
      simp [h]
    · rw [show insertEntry k v (g :: rest) = g :: insertEntry k v rest by
        simp [insertEntry, h]]
      have hne : ¬ k = g.1 := fun hh => h hh.symm
      by_cases hk : k ∈ rest.map Prod.fst
      · simp [ih, hk, hne]
      · simp [ih, hk, hne]

theorem keysNodup_insertEntry {κ : Type} [DecidableEq κ] {k : κ} {v : String}
    {gs : List (κ × List String)} (h : (gs.map Prod.fst).Nodup) :
    ((insertEntry k v gs).map Prod.fst).Nodup := by
  rw [keys_insertEntry]
  split
  · exact h
  · rename_i hk
    rw [List.nodup_append]
    refine ⟨h, List.nodup_singleton k, ?_⟩
    intro a ha hb
    rw [List.mem_singleton] at hb
    subst hb
    exact hk ha

theorem bucketsNonempty_insertEntry {κ : Type} [DecidableEq κ] {k : κ} {v : String}
    {gs : List (κ × List String)} (h : ∀ g ∈ gs, g.2 ≠ []) :
    ∀ g ∈ insertEntry k v gs, g.2 ≠ [] := by
  induction gs with
  | nil =>
    intro g hg
    simp only [insertEntry, List.mem_singleton] at hg
    subst hg; simp
  | cons g0 rest ih =>
    intro g hg
    by_cases hk : g0.1 = k
    · rw [show insertEntry k v (g0 :: rest) = (g0.1, g0.2 ++ [v]) :: rest by
        simp [insertEntry, hk]] at hg
      rcases List.mem_cons.mp hg with rfl | hg
      · simp
      · exact h g (List.mem_cons_of_mem g0 hg)
    · rw [show insertEntry k v (g0 :: rest) = g0 :: insertEntry k v rest by
        simp [insertEntry, hk]] at hg
      rcases List.mem_cons.mp hg with rfl | hg
      · exact h _ (List.mem_cons_self _ rest)
      · exact ih (fun g' hg' => h g' (List.mem_cons_of_mem g0 hg')) g hg

theorem findGroup_eq_some_of_mem {κ : Type} [DecidableEq κ] {k : κ} {b : List String} :
    ∀ {gs : List (κ × List String)}, (gs.map Prod.fst).Nodup → (k, b) ∈ gs →
      findGroup k gs = some b := by
  intro gs
  induction gs with
  | nil => intro _ h; cases h
  | cons g rest ih =>
    intro hnd hmem
    rcases List.mem_cons.mp hmem with rfl | hmem
    · simp [findGroup]
    · have hk : k ∈ rest.map Prod.fst := List.mem_map.mpr ⟨(k, b), hmem, rfl⟩
      rw [List.map_cons] at hnd
      have hg1 : ¬ g.1 = k := fun hh => (List.nodup_cons.mp hnd).1 (hh ▸ hk)
      rw [show findGroup k (g :: rest) = findGroup k rest by simp [findGroup, hg1]]
      exact ih (List.nodup_cons.mp hnd).2 hmem

theorem mem_of_findGroup_eq_some {κ : Type} [DecidableEq κ] {k : κ} {b : List String} :
    ∀ {gs : List (κ × List String)}, findGroup k gs = some b → (k, b) ∈ gs := by
  intro gs
  induction gs with
  | nil => intro h; cases h
  | cons g rest ih =>
    intro h
    by_cases hg : g.1 = k
    · rw [show findGroup k (g :: rest) = some g.2 by simp [findGroup, hg]] at h
      injection h with h
      exact List.mem_cons.mpr (Or.inl (by rw [← hg, ← h]))
    · rw [show findGroup k (g :: rest) = findGroup k rest by simp [findGroup, hg]] at h
      exact List.mem_cons_of_mem g (ih h)

theorem bucketOf_insertAll {κ : Type} [DecidableEq κ] (k : κ) :
    ∀ (kvs : List (κ × String)) (gs : List (κ × List String)),
      bucketOf k (insertAll gs kvs) =
        bucketOf k gs ++ (kvs.filter (fun kv => kv.1 = k)).map Prod.snd := by
  intro kvs
  induction kvs with
  | nil => intro gs; simp [insertAll]
  | cons kv rest ih =>
    intro gs
    have hstep : insertAll gs (kv :: rest) = insertAll (insertEntry kv.1 kv.2 gs) rest := rfl
    rw [hstep, ih]
    by_cases hk : kv.1 = k
    · subst hk
      rw [show bucketOf kv.1 (insertEntry kv.1 kv.2 gs) = bucketOf kv.1 gs ++ [kv.2] by
        simp [bucketOf, findGroup_insertEntry_self]]
      rw [show (kv :: rest).filter (fun kv' => decide (kv'.1 = kv.1)) =
          kv :: rest.filter (fun kv' => decide (kv'.1 = kv.1)) by simp]
      simp
    · rw [show bucketOf k (insertEntry kv.1 kv.2 gs) = bucketOf k gs by
        simp [bucketOf, findGroup_insertEntry_other (fun hh => hk hh.symm)]]
      rw [show (kv :: rest).filter (fun kv' => decide (kv'.1 = k)) =
          rest.filter (fun kv' => decide (kv'.1 = k)) by simp [hk]]

theorem keysNodup_insertAll {κ : Type} [DecidableEq κ] :
    ∀ (kvs : List (κ × String)) (gs : List (κ × List String)),
      (gs.map Prod.fst).Nodup → ((insertAll gs kvs).map Prod.fst).Nodup := by
  intro kvs
  induction kvs with
  | nil => intro gs h; exact h
  | cons kv rest ih => intro gs h; exact ih _ (keysNodup_insertEntry h)

theorem bucketsNonempty_insertAll {κ : Type} [DecidableEq κ] :
    ∀ (kvs : List (κ × String)) (gs : List (κ × List String)),
      (∀ g ∈ gs, g.2 ≠ []) → ∀ g ∈ insertAll gs kvs, g.2 ≠ [] := by
  intro kvs
  induction kvs with
  | nil => intro gs h; exact h
  | cons kv rest ih => intro gs h; exact ih _ (bucketsNonempty_insertEntry h)

/-! ## Characterisation of `find_duplicate_files` -/

theorem file_hashes_eq_insertAll (h : Text → Nat) (files : List (String × Text)) :
    file_hashes h files = insertAll [] (files.map (fun f => (h f.2, f.1))) := by
  unfold file_hashes insertAll
  rw [List.foldl_map]

theorem bucketOf_file_hashes (h : Text → Nat) (files : List (String × Text)) (v : Nat) :
    bucketOf v (file_hashes h files) =
      (files.filter (fun f => h f.2 = v)).map Prod.fst := by
  rw [file_hashes_eq_insertAll, bucketOf_insertAll]
  rw [show bucketOf v ([] : List (Nat × List String)) = [] from rfl]
  rw [List.filter_map, List.map_map]
  rfl

theorem keysNodup_file_hashes (h : Text → Nat) (files : List (String × Text)) :
    ((file_hashes h files).map Prod.fst).Nodup := by
  rw [file_hashes_eq_insertAll]
  exact keysNodup_insertAll _ _ (by simp)

theorem bucketsNonempty_file_hashes (h : Text → Nat) (files : List (String × Text)) :
    ∀ g ∈ file_hashes h files, g.2 ≠ [] := by
  rw [file_hashes_eq_insertAll]
  exact bucketsNonempty_insertAll _ _ (by simp)

/-- Every group of `file_hashes` carries exactly the paths of the files
with its hash, in traversal order. -/
theorem mem_file_hashes {h : Text → Nat} {files : List (String × Text)}
    {v : Nat} {b : List String} (hmem : (v, b) ∈ file_hashes h files) :
    b = (files.filter (fun f => h f.2 = v)).map Prod.fst := by
  have := findGroup_eq_some_of_mem (keysNodup_file_hashes h files) hmem
  have hb : bucketOf v (file_hashes h files) = b := by
    unfold bucketOf; rw [this]; rfl
  rw [← hb, bucketOf_file_hashes]

theorem dupOutputs_cons_long (v : Nat) (p0 p1 : String) (ps : List String)
    (gs : List (Nat × List String)) :
    dupOutputs ((v, p0 :: p1 :: ps) :: gs) =
      ((p1 :: ps) ++ (dupOutputs gs).1, (p0, p0 :: p1 :: ps) :: (dupOutputs gs).2) := rfl

theorem dupOutputs_cons_nil (v : Nat) (gs : List (Nat × List String)) :
    dupOutputs ((v, []) :: gs) = dupOutputs gs := rfl

theorem dupOutputs_cons_single (v : Nat) (p : String) (gs : List (Nat × List String)) :
    dupOutputs ((v, [p]) :: gs) = dupOutputs gs := rfl

/-- Every redundant path comes from dropping the head of some group, and
conversely. -/
theorem mem_dupOutputs_red {p : String} {gs : List (Nat × List String)} :
    p ∈ (dupOutputs gs).1 ↔ ∃ g ∈ gs, p ∈ g.2.drop 1 := by
  induction gs with
  | nil => simp [dupOutputs]
  | cons g rest ih =>
    rcases g with ⟨w, _ | ⟨p0, _ | ⟨p1, ps⟩⟩⟩
    · rw [dupOutputs_cons_nil, ih]
      constructor
      · rintro ⟨g', hg', hp⟩; exact ⟨g', List.mem_cons_of_mem _ hg', hp⟩
      · rintro ⟨g', hg', hp⟩
        rcases List.mem_cons.mp hg' with rfl | hg'
        · exact absurd hp (by simp)
        · exact ⟨g', hg', hp⟩
    · rw [dupOutputs_cons_single, ih]
      constructor
      · rintro ⟨g', hg', hp⟩; exact ⟨g', List.mem_cons_of_mem _ hg', hp⟩
      · rintro ⟨g', hg', hp⟩
        rcases List.mem_cons.mp hg' with rfl | hg'
        · exact absurd hp (by simp)
        · exact ⟨g', hg', hp⟩
    · rw [dupOutputs_cons_long]
      simp only [List.mem_append, ih]
      constructor
      · rintro (hp | ⟨g', hg', hp⟩)
        · exact ⟨(w, p0 :: p1 :: ps), List.mem_cons_self _ _, by simpa using hp⟩
        · exact ⟨g', List.mem_cons_of_mem _ hg', hp⟩
      · rintro ⟨g', hg', hp⟩
        rcases List.mem_cons.mp hg' with rfl | hg'
        · exact Or.inl (by simpa using hp)
        · exact Or.inr ⟨g', hg', hp⟩

/-- If no group has member list `b`, no issue carries `b`. -/
theorem dupOutputs_count_zero {gs : List (Nat × List String)} {m0 : String}
    {b : List String} (hb : ∀ g ∈ gs, g.2 ≠ b) :
    ((dupOutputs gs).2).count (m0, b) = 0 := by
  induction gs with
  | nil => simp [dupOutputs]
  | cons g rest ih =>
    have hrest := ih (fun g' hg' => hb g' (List.mem_cons_of_mem g hg'))
    rcases g with ⟨w, _ | ⟨p0, _ | ⟨p1, ps⟩⟩⟩
    · rw [dupOutputs_cons_nil]; exact hrest
    · rw [dupOutputs_cons_single]; exact hrest
    · rw [dupOutputs_cons_long, List.count_cons, hrest]
      have hne : ¬ ((p0, p0 :: p1 :: ps) = (m0, b)) := by
        intro hh
        injection hh with h1 h2
        exact hb (w, p0 :: p1 :: ps) (List.mem_cons_self _ rest) h2
      simp [hne]

/-- The unique group with member list `m0 :: p1 :: ms` yields exactly
one issue, and that issue names `m0`, the group head. -/
theorem dupOutputs_count_one {gs : List (Nat × List String)} {v : Nat} {m0 p1 : String}
    {ms : List String}
    (hkeys : (gs.map Prod.fst).Nodup)
    (hmem : (v, m0 :: p1 :: ms) ∈ gs)
    (huniq : ∀ g ∈ gs, g.2 = m0 :: p1 :: ms → g.1 = v) :
    ((dupOutputs gs).2).count (m0, m0 :: p1 :: ms) = 1 := by
  induction gs with
  | nil => cases hmem
  | cons g rest ih =>
    rw [List.map_cons] at hkeys
    rcases List.mem_cons.mp hmem with heq | hmem
    · subst heq
      rw [dupOutputs_cons_long, List.count_cons]
      have hzero : ((dupOutputs rest).2).count (m0, m0 :: p1 :: ms) = 0 := by
        refine dupOutputs_count_zero (fun g' hg' hb' => ?_)
        have hv : g'.1 = v := huniq g' (List.mem_cons_of_mem _ hg') hb'
        have hm : g'.1 ∈ rest.map Prod.fst := List.mem_map.mpr ⟨g', hg', rfl⟩
        exact (List.nodup_cons.mp hkeys).1 (by simpa [hv] using hm)
      rw [hzero]
      simp
    · have hgne : g.2 ≠ m0 :: p1 :: ms := by
        intro hb
        have hv : g.1 = v := huniq g (List.mem_cons_self g rest) hb
        have hm : v ∈ rest.map Prod.fst :=
          List.mem_map.mpr ⟨(v, m0 :: p1 :: ms), hmem, rfl⟩
        exact (List.nodup_cons.mp hkeys).1 (hv ▸ hm)
      have hrest := ih (List.nodup_cons.mp hkeys).2 hmem
        (fun g' hg' => huniq g' (List.mem_cons_of_mem g hg'))
      rcases g with ⟨w, _ | ⟨p0, _ | ⟨q1, qs⟩⟩⟩
      · rw [dupOutputs_cons_nil]; exact hrest
      · rw [dupOutputs_cons_single]; exact hrest
      · rw [dupOutputs_cons_long, List.count_cons, hrest]
        have hne : ¬ ((p0, p0 :: q1 :: qs) = (m0, m0 :: p1 :: ms)) := by
          intro hh
          injection hh with h1 h2
          exact hgne h2
        simp [hne]

/-- C7: for every group of scanned files with equal content hash and
more than one member (member paths `m0 :: p1 :: ms` in traversal order),
exactly one DUPLICATE_FILES issue is logged for the group — naming the
first member `m0` and listing all members — and a member path is in the
redundant-files list iff it is not the first member.  Paths are assumed
pairwise distinct, as produced by a filesystem walk. -/
theorem C7_duplicate_files (h : Text → Nat) (files : List (String × Text))
    (hnd : (files.map Prod.fst).Nodup) (v : Nat) (m0 p1 : String) (ms : List String)
    (hgroup : (files.filter (fun f => h f.2 = v)).map Prod.fst = m0 :: p1 :: ms) :
    ((find_duplicate_files h files).2).count (m0, m0 :: p1 :: ms) = 1 ∧
    (∀ p ∈ m0 :: p1 :: ms, (p ∈ (find_duplicate_files h files).1 ↔ p ∈ p1 :: ms)) := by
  have hsame : ∀ (w : Nat) (q : String),
      q ∈ (files.filter (fun f => h f.2 = w)).map Prod.fst →
      q ∈ (files.filter (fun f => h f.2 = v)).map Prod.fst → w = v := by
    intro w q hqw hqv
    rcases List.mem_map.mp hqw with ⟨f, hf, rfl⟩
    rcases List.mem_map.mp hqv with ⟨f', hf', hq⟩
    rcases List.mem_filter.mp hf with ⟨hfm, hfw⟩
    rcases List.mem_filter.mp hf' with ⟨hfm', hfv⟩
    have hff : f' = f := List.inj_on_of_nodup_map hnd hfm' hfm hq
    subst hff
    have hw : h f'.2 = w := by simpa using hfw
    have hv : h f'.2 = v := by simpa using hfv
    exact hw ▸ hv
  have hbucket : bucketOf v (file_hashes h files) = m0 :: p1 :: ms := by
    rw [bucketOf_file_hashes, hgroup]
  have hfind : findGroup v (file_hashes h files) = some (m0 :: p1 :: ms) := by
    rcases hfg : findGroup v (file_hashes h files) with _ | b
    · exact absurd (by unfold bucketOf at hbucket; rw [hfg] at hbucket; exact hbucket)
        (by simp)
    · unfold bucketOf at hbucket
      rw [hfg] at hbucket
      simpa using congrArg some hbucket
  have hmemg : (v, m0 :: p1 :: ms) ∈ file_hashes h files := mem_of_findGroup_eq_some hfind
  have huniq : ∀ g ∈ file_hashes h files, g.2 = m0 :: p1 :: ms → g.1 = v := by
    intro g hg hb
    have hform := mem_file_hashes (show (g.1, g.2) ∈ file_hashes h files from hg)
    refine hsame g.1 m0 ?_ ?_
    · rw [← hform, hb]; exact List.mem_cons_self _ _
    · rw [hgroup]; exact List.mem_cons_self _ _
  constructor
  · exact dupOutputs_count_one (keysNodup_file_hashes h files) hmemg huniq
  · intro p hp
    show p ∈ (dupOutputs (file_hashes h files)).1 ↔ p ∈ p1 :: ms
    rw [mem_dupOutputs_red]
    constructor
    · rintro ⟨g', hg', hpd⟩
      have hform := mem_file_hashes (show (g'.1, g'.2) ∈ file_hashes h files from hg')
      have hpg : p ∈ g'.2 := List.drop_subset 1 g'.2 hpd
      have hw : g'.1 = v := by
        refine hsame g'.1 p (by rw [← hform]; exact hpg) (by rw [hgroup]; exact hp)
      have hbeq : g'.2 = m0 :: p1 :: ms := by
        have h1 := findGroup_eq_some_of_mem (keysNodup_file_hashes h files)
          (show (v, g'.2) ∈ file_hashes h files from by
            rw [← hw]; exact hg')
        rw [hfind] at h1
        injection h1 with h1
        exact h1.symm
      rw [hbeq] at hpd
      simpa using hpd
    · intro hptail
      exact ⟨(v, m0 :: p1 :: ms), hmemg, by simpa using hptail⟩

/-- Witness for C7 at a concrete input: two byte-identical files grouped
by a content hash; one issue naming the first. -/
theorem C7_duplicate_files_witness :
    ((find_duplicate_files (fun t => t.length)
        [( "a.sh", str "x"), ( "b.sh", str "x")]).2).count
      ( "a.sh", [ "a.sh", "b.sh"]) = 1 :=
  (C7_duplicate_files (fun t => t.length) [( "a.sh", str "x"), ( "b.sh", str "x")]
    (by decide) 1 "a.sh" "b.sh" [] (by decide)).1

/-! ## Characterisation of `find_duplicate_functions` -/

theorem buildRegistry_eq (files : List (String × Text)) :
    buildRegistry files = insertAll []
      (files.flatMap (fun f => (scanHeaders f.2).map (fun n => (n, f.1)))) := by
  suffices h : ∀ (files : List (String × Text)) (gs : List (Text × List String)),
      files.foldl
        (fun gs f => (scanHeaders f.2).foldl (fun gs n => insertEntry n f.1 gs) gs) gs =
      insertAll gs (files.flatMap (fun f => (scanHeaders f.2).map (fun n => (n, f.1)))) by
    exact h files []
  intro files
  induction files with
  | nil => intro gs; rfl
  | cons f fs ih =>
    intro gs
    have h2 : insertAll gs ((scanHeaders f.2).map (fun n => (n, f.1))) =
        (scanHeaders f.2).foldl (fun gs n => insertEntry n f.1 gs) gs := by
      unfold insertAll
      rw [List.foldl_map]
    calc (f :: fs).foldl
          (fun gs f => (scanHeaders f.2).foldl (fun gs n => insertEntry n f.1 gs) gs) gs
        = fs.foldl (fun gs f => (scanHeaders f.2).foldl (fun gs n => insertEntry n f.1 gs) gs)
            ((scanHeaders f.2).foldl (fun gs n => insertEntry n f.1 gs) gs) := rfl
      _ = insertAll ((scanHeaders f.2).foldl (fun gs n => insertEntry n f.1 gs) gs)
            (fs.flatMap (fun f => (scanHeaders f.2).map (fun n => (n, f.1)))) := ih _
      _ = insertAll (insertAll gs ((scanHeaders f.2).map (fun n => (n, f.1))))
            (fs.flatMap (fun f => (scanHeaders f.2).map (fun n => (n, f.1)))) := by rw [h2]
      _ = insertAll gs ((scanHeaders f.2).map (fun n => (n, f.1)) ++
            fs.flatMap (fun f => (scanHeaders f.2).map (fun n => (n, f.1)))) := by
            unfold insertAll
            rw [List.foldl_append]
      _ = insertAll gs ((f :: fs).flatMap (fun f => (scanHeaders f.2).map (fun n => (n, f.1)))) := by
            rw [List.flatMap_cons]

/-- For a single scanned file, the registry bucket of a function name
holds the file's path once per header occurrence. -/
theorem bucketOf_buildRegistry_single (p : String) (c : Text) (name : Text) :
    bucketOf name (buildRegistry [(p, c)]) =
      List.replicate ((scanHeaders c).count name) p := by
  rw [buildRegistry_eq, bucketOf_insertAll]
  rw [show bucketOf name ([] : List (Text × List String)) = [] from rfl]
  rw [show ([(p, c)].flatMap (fun f => (scanHeaders f.2).map (fun n => (n, f.1)))) =
      (scanHeaders c).map (fun n => (n, p)) by simp]
  rw [List.filter_map, List.map_map]
  have hpred : ((fun kv : Text × String => decide (kv.1 = name)) ∘ fun n => (n, p)) =
      (fun n : Text => n == name) := by
    funext n
    by_cases hnn : n = name <;> simp [hnn]
  rw [hpred]
  rw [show (Prod.snd ∘ fun n : Text => (n, p)) = (fun _ => p) from rfl]
  rw [List.map_const', List.count, List.countP_eq_length_filter]
  simp

/-- C10: the duplicate-function registry records one entry per header
occurrence, not one per file: when a single file's text matches the
header regex for the same name at least twice, a DUPLICATE_FUNCTION
issue is logged for that name even though only one file defines it —
naming that file and listing it once per occurrence. -/
theorem C10_duplicate_function_per_occurrence (p : String) (c : Text) (name : Text)
    (h2 : 2 ≤ (scanHeaders c).count name) :
    (p, name, List.replicate ((scanHeaders c).count name) p) ∈
      find_duplicate_functions [(p, c)] := by
  have hbucket := bucketOf_buildRegistry_single p c name
  have hkeys : ((buildRegistry [(p, c)]).map Prod.fst).Nodup := by
    rw [buildRegistry_eq]
    exact keysNodup_insertAll _ _ (by simp)
  have hfind : findGroup name (buildRegistry [(p, c)]) =
      some (List.replicate ((scanHeaders c).count name) p) := by
    rcases hfg : findGroup name (buildRegistry [(p, c)]) with _ | b
    · exfalso
      unfold bucketOf at hbucket
      rw [hfg] at hbucket
      have := congrArg List.length hbucket
      simp only [List.getD_nil] at this
      rw [show (Option.getD (none : Option (List String)) []) = [] from rfl] at this
      simp at this
      omega
    · unfold bucketOf at hbucket
      rw [hfg] at hbucket
      simpa using congrArg some hbucket
  have hmem : (name, List.replicate ((scanHeaders c).count name) p) ∈ buildRegistry [(p, c)] :=
    mem_of_findGroup_eq_some hfind
  show _ ∈ dupFnIssues (buildRegistry [(p, c)])
  unfold dupFnIssues
  refine List.mem_filterMap.mpr
    ⟨(name, List.replicate ((scanHeaders c).count name) p), hmem, ?_⟩
  rcases hn : (scanHeaders c).count name with _ | ⟨_ | k⟩
  · omega
  · omega
  · rw [List.replicate_succ, List.replicate_succ]

/-- Witness for C10 at a concrete input: one file defining `f` twice is
reported as a duplicate function. -/
theorem C10_duplicate_function_per_occurrence_witness :
    ( "a.sh", str "f", [ "a.sh", "a.sh"]) ∈
      find_duplicate_functions [( "a.sh", str "f() \x7b\n\x7d\nf() \x7b\n\x7d")] :=
  C10_duplicate_function_per_occurrence "a.sh"
    (str "f() \x7b\n\x7d\nf() \x7b\n\x7d") (str "f") (by decide)

/-! ## Claims about the unused-file audit -/

theorem occursNoNl_imp {b u : Text} (h : occursNoNl b u = true) :
    ∃ x y, u = x ++ b ++ y := by
  induction u with
  | nil =>
    simp only [occursNoNl, startsWith_iff] at h
    rcases h with ⟨r, hr⟩
    rcases List.append_eq_nil.mp hr.symm with ⟨rfl, rfl⟩
    exact ⟨[], [], rfl⟩
  | cons c cs ih =>
    simp only [occursNoNl, Bool.or_eq_true, Bool.and_eq_true] at h
    rcases h with h | ⟨_, h⟩
    · rcases startsWith_iff.mp h with ⟨r, hr⟩
      exact ⟨[], r, by simpa using hr⟩
    · rcases ih h with ⟨x, y, rfl⟩
      exact ⟨c :: x, y, rfl⟩

theorem searchSeq_imp {a b t : Text} (h : searchSeq a b t = true) :
    ∃ x y, t = x ++ b ++ y := by
  induction t with
  | nil =>
    simp only [searchSeq, Bool.and_eq_true] at h
    rcases occursNoNl_imp h.2 with ⟨x, y, hxy⟩
    exact ⟨x, y, hxy⟩
  | cons c cs ih =>
    simp only [searchSeq, Bool.or_eq_true, Bool.and_eq_true] at h
    rcases h with ⟨_, h⟩ | h
    · rcases occursNoNl_imp h with ⟨x, y, hxy⟩
      refine ⟨(c :: cs).take a.length ++ x, y, ?_⟩
      conv_lhs => rw [← List.take_append_drop a.length (c :: cs)]
      rw [hxy]
      simp [List.append_assoc]
    · rcases ih h with ⟨x, y, rfl⟩
      exact ⟨c :: x, y, rfl⟩

/-- If any of the four reference regexes matches, the (lowercased)
filename or stem occurs as a substring of the (lowercased) corpus. -/
theorem referenced_imp_appears {all : Text} {f : SFile}
    (h : referenced all f = true) :
    containsSub (lowerT f.name) (lowerT all) = true ∨
    containsSub (lowerT (pathStem f.name)) (lowerT all) = true := by
  unfold referenced at h
  simp only [Bool.or_eq_true] at h
  rcases h with ((h | h) | h) | h
  · rcases searchSeq_imp h with ⟨x, y, hxy⟩
    exact Or.inl (containsSub_iff.mpr ⟨x, y, hxy⟩)
  · rcases searchSeq_imp h with ⟨x, y, hxy⟩
    exact Or.inr (containsSub_iff.mpr ⟨x, y, hxy⟩)
  · rcases searchSeq_imp h with ⟨x, y, hxy⟩
    exact Or.inl (containsSub_iff.mpr ⟨x, y, hxy⟩)
  · rcases containsSub_iff.mp h with ⟨x, y, hxy⟩
    exact Or.inr (containsSub_iff.mpr ⟨x, (str ".sh") ++ y, by
      rw [hxy]; simp [List.append_assoc]⟩)

/-- The C8 counterexample file: `ab.sh`, whose content mentions its own
stem `ab` but in none of the four reference-pattern shapes. -/
def c8_file : SFile := { name := str "ab.sh", content := str "ab", exec := false }

/-- C8, counterexample: `ab.sh` is flagged unused even though its stem
`ab` appears as a substring of the corpus — the claimed
appears-as-substring condition is not equivalent to the code's
reference-pattern search, so the claimed iff fails. -/
theorem C8_counterexample :
    c8_file ∈ check_unused_files [c8_file] ∧
    containsSub (lowerT (pathStem c8_file.name)) (lowerT (auditCorpus [c8_file])) = true := by
  decide

/-- C8, amended: a scanned file is flagged unused iff it is not in the
entry-point allow-list, none of the four reference regexes (`source`
then filename on one line, `source` then stem on one line, a dot then
filename on one line, stem followed by `.sh`) matches the corpus
case-insensitively, and it is not executable.  If neither the filename
nor the stem appears case-insensitively as a substring of the corpus,
then no reference regex matches, so the claimed substring condition is
sufficient for flagging — but not necessary, as a bare occurrence of the
stem outside these patterns does not prevent flagging. -/
theorem C8_amended (files : List SFile) (f : SFile) (hf : f ∈ files) :
    (f ∈ check_unused_files files ↔
      ((skip_files.contains f.name) = false ∧
       referenced (auditCorpus files) f = false ∧
       f.exec = false)) ∧
    ((containsSub (lowerT f.name) (lowerT (auditCorpus files)) = false ∧
      containsSub (lowerT (pathStem f.name)) (lowerT (auditCorpus files)) = false) →
      referenced (auditCorpus files) f = false) := by
  constructor
  · unfold check_unused_files
    rw [List.mem_filter]
    simp [hf, Bool.and_eq_true, and_assoc]
  · rintro ⟨h1, h2⟩
    rcases hc : referenced (auditCorpus files) f with _ | _
    · rfl
    · rcases referenced_imp_appears hc with happ | happ
      · rw [happ] at h1; cases h1
      · rw [happ] at h2; cases h2

/-- Witness for C8's amended claim at a concrete input: a file in no
allow-list, with no reference-pattern match and no executable bit, is
flagged. -/
theorem C8_amended_witness :
    c8_file ∈ check_unused_files [c8_file] :=
  (C8_amended [c8_file] c8_file (by decide)).1.mpr (by decide)

/-! ## Claims about the Framework-Import Injector -/

theorem mem_insertIdx_any {α : Type} {x a : α} :
    ∀ (n : Nat) (l : List α), x ∈ List.insertIdx n a l → x = a ∨ x ∈ l := by
  intro n
  induction n with
  | zero =>
    intro l h
    rw [List.insertIdx_zero] at h
    exact List.mem_cons.mp h
  | succ n ih =>
    intro l h
    cases l with
    | nil =>
      rw [List.insertIdx_succ_nil] at h
      exact Or.inr h
    | cons b bs =>
      rw [List.insertIdx_succ_cons] at h
      rcases List.mem_cons.mp h with rfl | h
      · exact Or.inr (List.mem_cons_self _ _)
      · rcases ih bs h with h | h
        · exact Or.inl h
        · exact Or.inr (List.mem_cons_of_mem _ h)

/-- Lines of an injector output: original lines, import-block lines, or
empty. -/
theorem add_framework_import_lines (t : Text) (ft : String) :
    ∀ l ∈ splitLines (add_framework_import t ft),
      l ∈ splitLines t ∨ l ∈ splitLines test_import_block ∨
        l ∈ splitLines ui_import_block ∨ l = [] := by
  have hblock : ∀ (block : Text),
      ∀ l ∈ splitLines (joinLines
        ((splitLines t).insertIdx (insertIndexOf (splitLines t)) block)),
        l ∈ splitLines t ∨ l ∈ splitLines block ∨ l = [] := by
    intro block l hl
    rcases mem_splitLines_joinLines hl with ⟨x, hx, hlx⟩ | rfl
    · rcases mem_insertIdx_any _ _ hx with rfl | hx
      · exact Or.inr (Or.inl hlx)
      · have hnl := noNl_of_mem_splitLines hx
        rw [splitLines_noNl hnl] at hlx
        rw [List.mem_singleton.mp hlx]
        exact Or.inl hx
    · exact Or.inr (Or.inr rfl)
  intro l hl
  unfold add_framework_import at hl
  by_cases h1 : ft = "test"
  · rw [if_pos h1] at hl
    rcases hblock test_import_block l hl with h | h | h
    · exact Or.inl h
    · exact Or.inr (Or.inl h)
    · exact Or.inr (Or.inr (Or.inr h))
  · rw [if_neg h1] at hl
    by_cases h2 : ft = "ui"
    · rw [if_pos h2] at hl
      rcases hblock ui_import_block l hl with h | h | h
      · exact Or.inl h
      · exact Or.inr (Or.inr (Or.inl h))
      · exact Or.inr (Or.inr (Or.inr h))
    · rw [if_neg h2] at hl
      exact Or.inl hl

theorem test_block_noHeader : ∀ l ∈ splitLines test_import_block, headerName l = none := by
  decide

theorem ui_block_noHeader : ∀ l ∈ splitLines ui_import_block, headerName l = none := by
  decide

theorem noHeaderIn_of_none {l : Text} (h : headerName l = none) (fns : List Text) :
    NoHeaderIn fns l := by
  intro n hn
  rw [h] at hn
  exact Option.noConfusion hn

/-- The test-framework branch of `update_file`
(`consolidate_duplicates.py`, lines 151-160). -/
def testStage (c : Text) : Text :=
  if should_add_test_framework c then
    remove_duplicate_functions
      (if ¬ (containsSub (str "test_framework_core.sh") c = true) then
        add_framework_import c "test"
      else c) test_functions
  else c

/-- The UI-framework branch of `update_file`
(`consolidate_duplicates.py`, lines 162-171). -/
def uiStage (t : Text) : Text :=
  if should_add_ui_framework t then
    remove_duplicate_functions
      (if ¬ (containsSub (str "print_utils.sh") t = true) then
        add_framework_import t "ui"
      else t) ui_functions
  else t

theorem update_file_eq (c : Text) : update_file c = uiStage (testStage c) := rfl

/-- After the test branch, no line is a test-function header. -/
theorem testStage_noTestHeader (c : Text) :
    ∀ l ∈ splitLines (testStage c), NoHeaderIn test_functions l := by
  intro l hl
  unfold testStage at hl
  split at hl
  · exact remove_lines_noHeader _ test_functions l hl
  · rename_i hno
    intro n hn hmem
    have hsub : containsSub n c = true := containsSub_of_header hl hn
    exact hno (List.any_eq_true.mpr ⟨n, hmem, hsub⟩)

/-- The UI branch introduces no test-function header. -/
theorem uiStage_preserves_noTest (t : Text)
    (ht : ∀ l ∈ splitLines t, NoHeaderIn test_functions l) :
    ∀ l ∈ splitLines (uiStage t), NoHeaderIn test_functions l := by
  intro l hl
  unfold uiStage at hl
  split at hl
  · rcases remove_lines_subset _ ui_functions l hl with hsub | rfl
    · revert hsub
      split
      · intro hsub
        rcases add_framework_import_lines t "ui" l hsub with h | h | h | rfl
        · exact ht l h
        · exact noHeaderIn_of_none (test_block_noHeader l h) _
        · exact noHeaderIn_of_none (ui_block_noHeader l h) _
        · exact noHeaderIn_of_none headerName_nil _
      · intro hsub
        exact ht l hsub
    · exact noHeaderIn_of_none headerName_nil _
  · exact ht l hl

theorem update_file_noTestHeader (c : Text) :
    ∀ l ∈ splitLines (update_file c), NoHeaderIn test_functions l := by
  rw [update_file_eq]
  exact uiStage_preserves_noTest (testStage c) (testStage_noTestHeader c)

/-- When the second call's UI branch fires, stripping the UI functions
from the first call's output changes nothing. -/
theorem update_file_removeUi (c : Text)
    (hU : should_add_ui_framework (update_file c) = true) :
    remove_duplicate_functions (update_file c) ui_functions = update_file c := by
  rcases h1 : should_add_ui_framework (testStage c) with _ | _
  · have heq : update_file c = testStage c := by
      rw [update_file_eq]; unfold uiStage; rw [if_neg (by simp [h1])]
    rw [heq] at hU
    exact absurd hU (by simp [h1])
  · have heq : update_file c =
        remove_duplicate_functions
          (if ¬ (containsSub (str "print_utils.sh") (testStage c) = true) then
            add_framework_import (testStage c) "ui"
          else testStage c) ui_functions := by
      rw [update_file_eq]; unfold uiStage; rw [if_pos h1]
    rw [heq]
    apply remove_id_of_noHeader
    intro l hl
    exact remove_lines_noHeader _ ui_functions l hl

/-- The C6 counterexample input: it mentions `test_pass`, defines
`print_header` with an unbalanced brace inside a string literal, and
carries a bootstrap marker block below the function. -/
def c6_input : Text :=
  str "test_pass\nprint_header() \x7b\necho \"\x7b\"\n\x7d\nSERVERSENTRY_ENV_LOADED bootstrap\nfi"

set_option maxRecDepth 200000 in
/-- C6, counterexample: invoking the injector twice on this file does
NOT yield the first invocation's output.  In the first call the UI
removal step, seeded with an unbalanced brace, swallows everything after
the `print_header` line — including the just-inserted test block —
leaving just `test_pass`; the second call therefore re-inserts the
test block. -/
theorem C6_counterexample :
    update_file (update_file c6_input) ≠ update_file c6_input := by decide

/-- C6, amended: a second invocation of the injector changes nothing
PROVIDED the first invocation's output still contains, for each
framework whose functions it mentions, that framework's canonical
source-path fragment — then the already-imported check short-circuits
re-insertion and the removal pass finds no headers left to strip.  (The
proviso can fail: when function removal swallows the freshly
inserted block, a second invocation inserts it again, as the
counterexample shows.) -/
theorem C6_amended (c : Text)
    (h1 : should_add_test_framework (update_file c) = true →
      containsSub (str "test_framework_core.sh") (update_file c) = true)
    (h2 : should_add_ui_framework (update_file c) = true →
      containsSub (str "print_utils.sh") (update_file c) = true) :
    update_file (update_file c) = update_file c := by
  have htest : testStage (update_file c) = update_file c := by
    unfold testStage
    split
    · rename_i hT
      rw [if_neg (by simp [h1 hT])]
      exact remove_id_of_noHeader (update_file_noTestHeader c)
    · rfl
  have hui : uiStage (update_file c) = update_file c := by
    unfold uiStage
    split
    · rename_i hU
      rw [if_neg (by simp [h2 hU])]
      exact update_file_removeUi c hU
    · rfl
  calc update_file (update_file c) = uiStage (testStage (update_file c)) := update_file_eq _
    _ = uiStage (update_file c) := by rw [htest]
    _ = update_file c := hui

set_option maxRecDepth 200000 in
/-- Witness for C6's amended claim at a concrete input: the first call
inserts the test import block; the second call changes nothing. -/
theorem C6_amended_witness :
    update_file (update_file (str "test_pass")) = update_file (str "test_pass") :=
  C6_amended (str "test_pass") (by decide) (by decide)

end ServerSentry
